import Mathlib

/-!
Shallow embedding of `src/Fibonacci_by_linear_algebra_approach.py`.

The program computes Fibonacci numbers exactly by working in the ring
Z[sqrt 5]: field elements are pairs of unbounded integers, multiplied by
`fm_f` (three scalar multiplications), raised to a power by the generic
repeated-squaring routine `power_recursion`, and post-processed by an
arithmetic right shift.

Embedding conventions:
  * Python's unbounded `int` becomes `Int`.
  * Python 2's `/` on integers is floor division, embedded as `Int.fdiv`;
    `%` on a positive left operand agrees with `Int.emod` (`%` on `Int`).
  * Python's `>>` by a non-negative amount k is floor division by 2^k,
    embedded as `Int.fdiv _ (2 ^ k)`; a negative shift amount raises
    `ValueError`, embedded as `Option.none`.
  * The decorator `n_ary` turns a binary function into a function of one
    required argument plus a `*args` tail, embedded as a `List` tail.
-/

universe u

variable {α : Type u}

/-- `n_ary_f`, the inner worker of the decorator `n_ary`
(`return x if not args else f(x, n_ary_f(*args))`). -/
def n_ary_f (f : α → α → α) : α → List α → α
  | x, [] => x
  | x, y :: args => f x (n_ary_f f y args)

/-- `n_ary(f)` returns `n_ary_f` closed over `f`. -/
def n_ary (f : α → α → α) : α → List α → α :=
  n_ary_f f

/-- The inner binary multiplication `fm_f` of `field_multiply`:
`(w, x), (y, z) = expr1, expr2; u = w*y; v = x*z;
return (u + squared_field*v, (w + x)*(y + z) - u - v)`. -/
def fm_f (squared_field : Int) (expr1 expr2 : Int × Int) : Int × Int :=
  let (w, x) := expr1
  let (y, z) := expr2
  let u := w * y
  let v := x * z
  (u + squared_field * v, (w + x) * (y + z) - u - v)

/-- `field_multiply(squared_field)` returns `fm_f` wrapped by the `n_ary`
decorator, so the returned function takes one required pair plus a tail of
further pairs. -/
def field_multiply (squared_field : Int) : Int × Int → List (Int × Int) → Int × Int :=
  n_ary (fm_f squared_field)

/-- `power_recursion(expr, n, f)`: repeated squaring.  `f` is a function
already wrapped by `n_ary` (one required argument plus a tail), called in the
source as `f(*args)` with `args = [recurse, recurse]` plus `expr` when `n` is
odd.  Python 2's `n/2` is floor division, hence `Int.fdiv`. -/
def power_recursion (expr : α) (n : Int) (f : α → List α → α) : α :=
  if h : n > 1 then
    let recurse := power_recursion expr (Int.fdiv n 2) f
    if n % 2 ≠ 0 then f recurse [recurse, expr]
    else f recurse [recurse]
  else expr
termination_by n.toNat
decreasing_by
  rw [Int.fdiv_eq_ediv _ (by norm_num)]
  omega

/-- `fibonacci(n)`: `0` when `n == 0`, else the sqrt-5 coefficient of
`(1 + sqrt 5)^n` computed by `power_recursion` with `field_multiply(5)`,
shifted right by `n - 1`.  Python raises `ValueError` on a negative shift
amount, modelled by `none`; the shift itself is floor division by
`2 ^ (n - 1)`. -/
def fibonacci (n : Int) : Option Int :=
  if n = 0 then some 0
  else if n - 1 < 0 then none
  else some (Int.fdiv (power_recursion ((1 : Int), (1 : Int)) n (field_multiply 5)).2
    (2 ^ (n - 1).toNat))

/-- Instrumented copy of `power_recursion` that additionally counts the
recursion depth, i.e. the number of calls to the combining function `f`
(one call of the `n_ary`-wrapped `f` per recursive level). -/
def power_recursion_instr (expr : α) (n : Int) (f : α → List α → α) : α × Nat :=
  if h : n > 1 then
    let p := power_recursion_instr expr (Int.fdiv n 2) f
    if n % 2 ≠ 0 then (f p.1 [p.1, expr], p.2 + 1)
    else (f p.1 [p.1], p.2 + 1)
  else (expr, 0)
termination_by n.toNat
decreasing_by
  rw [Int.fdiv_eq_ediv _ (by norm_num)]
  omega

/-- Iterated combination: `fpow f e k` is `e` combined with itself `k + 1`
times via `f`, associated to the left. -/
def fpow (f : α → α → α) (e : α) : Nat → α
  | 0 => e
  | k + 1 => f (fpow f e k) e

/-- Lucas numbers, the companion sequence of the Fibonacci numbers, used to
describe the integer component of `(1 + sqrt 5)^n`. -/
def lucas : Nat → Int
  | 0 => 2
  | 1 => 1
  | k + 2 => lucas (k + 1) + lucas k

/-! ### Unfolding lemmas for the recursive routines -/

theorem power_recursion_base (e : α) (n : Int) (f : α → List α → α) (h : n ≤ 1) :
    power_recursion e n f = e := by
  rw [power_recursion]
  simp [show ¬ (n > 1) by omega]

theorem power_recursion_even (e : α) (n : Int) (f : α → List α → α) (h1 : 1 < n)
    (h2 : n % 2 = 0) :
    power_recursion e n f =
      f (power_recursion e (Int.fdiv n 2) f) [power_recursion e (Int.fdiv n 2) f] := by
  rw [power_recursion]
  simp [h1, h2]

theorem power_recursion_odd (e : α) (n : Int) (f : α → List α → α) (h1 : 1 < n)
    (h2 : n % 2 ≠ 0) :
    power_recursion e n f =
      f (power_recursion e (Int.fdiv n 2) f) [power_recursion e (Int.fdiv n 2) f, e] := by
  rw [power_recursion]
  simp [h1, h2]

theorem power_recursion_instr_base (e : α) (n : Int) (f : α → List α → α) (h : n ≤ 1) :
    power_recursion_instr e n f = (e, 0) := by
  rw [power_recursion_instr]
  simp [show ¬ (n > 1) by omega]

theorem power_recursion_instr_even (e : α) (n : Int) (f : α → List α → α) (h1 : 1 < n)
    (h2 : n % 2 = 0) :
    power_recursion_instr e n f =
      (f (power_recursion_instr e (Int.fdiv n 2) f).1
        [(power_recursion_instr e (Int.fdiv n 2) f).1],
       (power_recursion_instr e (Int.fdiv n 2) f).2 + 1) := by
  rw [power_recursion_instr]
  simp [h1, h2]

theorem power_recursion_instr_odd (e : α) (n : Int) (f : α → List α → α) (h1 : 1 < n)
    (h2 : n % 2 ≠ 0) :
    power_recursion_instr e n f =
      (f (power_recursion_instr e (Int.fdiv n 2) f).1
        [(power_recursion_instr e (Int.fdiv n 2) f).1, e],
       (power_recursion_instr e (Int.fdiv n 2) f).2 + 1) := by
  rw [power_recursion_instr]
  simp [h1, h2]

/-! ### Generic repeated squaring computes iterated combination -/

theorem fpow_add (f : α → α → α) (hf : ∀ a b c, f (f a b) c = f a (f b c)) (e : α)
    (a b : Nat) : f (fpow f e a) (fpow f e b) = fpow f e (a + b + 1) := by
  induction b with
  | zero => rfl
  | succ b ih =>
      show f (fpow f e a) (f (fpow f e b) e) = _
      rw [← hf, ih]
      rfl

theorem power_recursion_eq_fpow_aux (f : α → α → α)
    (hf : ∀ a b c, f (f a b) c = f a (f b c)) (e : α) :
    ∀ (k : Nat) (n : Int), n.toNat ≤ k → 1 ≤ n →
      power_recursion e n (n_ary f) = fpow f e (n.toNat - 1) := by
  intro k
  induction k with
  | zero => intro n hk h1; omega
  | succ k ih =>
      intro n hk h1
      by_cases h2 : 1 < n
      · have hd : Int.fdiv n 2 = n / 2 := Int.fdiv_eq_ediv _ (by norm_num)
        have hrec := ih (Int.fdiv n 2) (by rw [hd]; omega) (by rw [hd]; omega)
        by_cases h3 : n % 2 = 0
        · rw [power_recursion_even e n _ h2 h3, hrec]
          show f (fpow f e _) (fpow f e _) = _
          rw [fpow_add f hf]
          congr 1
          rw [hd]
          omega
        · rw [power_recursion_odd e n _ h2 h3, hrec]
          show f (fpow f e ((Int.fdiv n 2).toNat - 1))
            (fpow f e ((Int.fdiv n 2).toNat - 1 + 1)) = _
          rw [fpow_add f hf]
          congr 1
          rw [hd]
          omega
      · have hb : n = 1 := by omega
        rw [power_recursion_base e n _ (by omega), hb]
        rfl

theorem power_recursion_eq_fpow (f : α → α → α)
    (hf : ∀ a b c, f (f a b) c = f a (f b c)) (e : α) (n : Int) (h : 1 ≤ n) :
    power_recursion e n (n_ary f) = fpow f e (n.toNat - 1) :=
  power_recursion_eq_fpow_aux f hf e n.toNat n le_rfl h

theorem power_recursion_instr_spec_aux :
    ∀ (k : Nat) (n : Int), n.toNat ≤ k → 1 ≤ n → ∀ (e : α) (f : α → List α → α),
      power_recursion_instr e n f = (power_recursion e n f, Nat.log 2 n.toNat) := by
  intro k
  induction k with
  | zero => intro n hk h1; omega
  | succ k ih =>
      intro n hk h1 e f
      by_cases h2 : 1 < n
      · have hd : Int.fdiv n 2 = n / 2 := Int.fdiv_eq_ediv _ (by norm_num)
        have hrec := ih (Int.fdiv n 2) (by rw [hd]; omega) (by rw [hd]; omega) e f
        have hlog : Nat.log 2 (Int.fdiv n 2).toNat + 1 = Nat.log 2 n.toNat := by
          have h4 : (Int.fdiv n 2).toNat = n.toNat / 2 := by rw [hd]; omega
          have h5 : 0 < Nat.log 2 n.toNat := Nat.log_pos (by norm_num) (by omega)
          rw [h4, Nat.log_div_base]
          omega
        by_cases h3 : n % 2 = 0
        · rw [power_recursion_instr_even e n f h2 h3, power_recursion_even e n f h2 h3,
            hrec, ← hlog]
        · rw [power_recursion_instr_odd e n f h2 h3, power_recursion_odd e n f h2 h3,
            hrec, ← hlog]
      · have hb : n = 1 := by omega
        rw [power_recursion_instr_base e n f (by omega),
          power_recursion_base e n f (by omega), hb]
        norm_num [Nat.log_one_right]

theorem power_recursion_instr_spec (e : α) (n : Int) (f : α → List α → α) (h : 1 ≤ n) :
    power_recursion_instr e n f = (power_recursion e n f, Nat.log 2 n.toNat) :=
  power_recursion_instr_spec_aux n.toNat n le_rfl h e f

/-! ### Algebra of the field multiplication -/

theorem fm_f_eq_direct (d w x y z : Int) :
    fm_f d (w, x) (y, z) = (w * y + d * (x * z), w * z + x * y) := by
  simp only [fm_f]
  refine Prod.ext rfl ?_
  ring

theorem fm_f_comm (d : Int) (p q : Int × Int) : fm_f d p q = fm_f d q p := by
  obtain ⟨w, x⟩ := p
  obtain ⟨y, z⟩ := q
  simp only [fm_f, Prod.mk.injEq]
  constructor <;> ring

theorem fm_f_assoc (d : Int) (p q r : Int × Int) :
    fm_f d (fm_f d p q) r = fm_f d p (fm_f d q r) := by
  obtain ⟨w, x⟩ := p
  obtain ⟨y, z⟩ := q
  obtain ⟨s, t⟩ := r
  simp only [fm_f, Prod.mk.injEq]
  constructor <;> ring

/-! ### Closed form of the exponentiated field element -/

theorem fib_cast_add_two (k : Nat) :
    (Nat.fib (k + 2) : Int) = Nat.fib k + Nat.fib (k + 1) := by
  rw [Nat.fib_add_two]
  push_cast
  ring

theorem lucas_add_fib (k : Nat) :
    lucas k + (Nat.fib k : Int) = 2 * (Nat.fib (k + 1) : Int) := by
  induction k using Nat.twoStepInduction with
  | zero => norm_num [lucas]
  | one => norm_num [lucas]
  | more k ih1 ih2 =>
      have h1 := fib_cast_add_two k
      have h2 := fib_cast_add_two (k + 1)
      simp only [lucas]
      linarith

theorem lucas_add_five_fib (k : Nat) :
    lucas k + 5 * (Nat.fib k : Int) = 2 * lucas (k + 1) := by
  induction k using Nat.twoStepInduction with
  | zero => norm_num [lucas]
  | one => norm_num [lucas]
  | more k ih1 ih2 =>
      have h1 := fib_cast_add_two k
      have h2 : lucas (k + 3) = lucas (k + 2) + lucas (k + 1) := by
        simp [lucas]
      simp only [lucas] at *
      linarith

theorem fpow_fm_f_closed (k : Nat) :
    fpow (fm_f 5) ((1 : Int), (1 : Int)) k =
      (2 ^ k * lucas (k + 1), 2 ^ k * (Nat.fib (k + 1) : Int)) := by
  induction k with
  | zero => norm_num [fpow, lucas]
  | succ k ih =>
      show fm_f 5 (fpow (fm_f 5) ((1 : Int), (1 : Int)) k) ((1 : Int), (1 : Int)) = _
      rw [ih]
      have h1 := lucas_add_five_fib (k + 1)
      have h2 := lucas_add_fib (k + 1)
      simp only [fm_f, Prod.mk.injEq]
      constructor
      · linear_combination (2 : Int) ^ k * h1
      · linear_combination (2 : Int) ^ k * h2

theorem power_recursion_fib (n : Int) (h : 1 ≤ n) :
    power_recursion ((1 : Int), (1 : Int)) n (field_multiply 5) =
      (2 ^ (n.toNat - 1) * lucas n.toNat,
       2 ^ (n.toNat - 1) * (Nat.fib n.toNat : Int)) := by
  have ha := power_recursion_eq_fpow (fm_f 5) (fm_f_assoc 5) ((1 : Int), (1 : Int)) n h
  have hb : n.toNat - 1 + 1 = n.toNat := by omega
  rw [show field_multiply 5 = n_ary (fm_f 5) from rfl, ha, fpow_fm_f_closed, hb]

theorem fib_correct (n : Int) (h : 0 ≤ n) :
    fibonacci n = some ((Nat.fib n.toNat : Int)) := by
  by_cases h0 : n = 0
  · subst h0
    norm_num [fibonacci]
  · have h1 : 1 ≤ n := by omega
    rw [fibonacci, if_neg h0, if_neg (show ¬ (n - 1 < 0) by omega),
      power_recursion_fib n h1]
    have he : (n - 1).toNat = n.toNat - 1 := by omega
    rw [he]
    congr 1
    rw [Int.fdiv_eq_ediv _ (by positivity)]
    exact Int.mul_ediv_cancel_left _ (by positivity)

/-! ### Claim theorems -/

/-- C1: fibonacci satisfies the Fibonacci recurrence: fibonacci(0) = 0,
fibonacci(1) = 1, and for every n ≥ 2,
fibonacci(n) = fibonacci(n-1) + fibonacci(n-2). -/
theorem fibonacci_recurrence (n : Int) (h : 2 ≤ n) :
    fibonacci 0 = some 0 ∧ fibonacci 1 = some 1 ∧
    ∃ a b c : Int, fibonacci n = some a ∧ fibonacci (n - 1) = some b ∧
      fibonacci (n - 2) = some c ∧ a = b + c := by
  refine ⟨rfl, ?_, ?_⟩
  · rw [fib_correct 1 (by norm_num)]
    decide
  · refine ⟨(Nat.fib n.toNat : Int), (Nat.fib (n - 1).toNat : Int),
      (Nat.fib (n - 2).toNat : Int), fib_correct n (by omega),
      fib_correct (n - 1) (by omega), fib_correct (n - 2) (by omega), ?_⟩
    have key : Nat.fib n.toNat = Nat.fib (n - 1).toNat + Nat.fib (n - 2).toNat := by
      have h1 : (n - 1).toNat = n.toNat - 2 + 1 := by omega
      have h2 : (n - 2).toNat = n.toNat - 2 := by omega
      have h3 : n.toNat = n.toNat - 2 + 2 := by omega
      rw [h1, h2]
      conv_lhs => rw [h3]
      rw [Nat.fib_add_two]
      exact Nat.add_comm _ _
    exact_mod_cast key

/-- C1 witness at n = 5. -/
theorem fibonacci_recurrence_witness :
    fibonacci 0 = some 0 ∧ fibonacci 1 = some 1 ∧
    ∃ a b c : Int, fibonacci 5 = some a ∧ fibonacci (5 - 1) = some b ∧
      fibonacci (5 - 2) = some c ∧ a = b + c :=
  fibonacci_recurrence 5 (by norm_num)

/-- C2: for every n ≥ 1 the sqrt-5 coefficient b of (1,1)^n under field
multiplication with d = 5 is evenly divisible by 2^(n-1), so the right shift
by n-1 (floor division by 2^(n-1)) is exact: multiplying the quotient back
recovers b with no truncated remainder. -/
theorem power_b_divisible (n : Int) (h : 1 ≤ n) :
    (2 : Int) ^ (n.toNat - 1) ∣
      (power_recursion ((1 : Int), (1 : Int)) n (field_multiply 5)).2 ∧
    Int.fdiv (power_recursion ((1 : Int), (1 : Int)) n (field_multiply 5)).2
        (2 ^ (n.toNat - 1)) * 2 ^ (n.toNat - 1) =
      (power_recursion ((1 : Int), (1 : Int)) n (field_multiply 5)).2 := by
  have hb : (power_recursion ((1 : Int), (1 : Int)) n (field_multiply 5)).2 =
      2 ^ (n.toNat - 1) * (Nat.fib n.toNat : Int) := by
    rw [power_recursion_fib n h]
  rw [hb]
  constructor
  · exact dvd_mul_right _ _
  · rw [Int.fdiv_eq_ediv _ (by positivity), Int.mul_ediv_cancel_left _ (by positivity)]
    ring

/-- C2 witness at n = 3. -/
theorem power_b_divisible_witness :
    (2 : Int) ^ ((3 : Int).toNat - 1) ∣
      (power_recursion ((1 : Int), (1 : Int)) 3 (field_multiply 5)).2 ∧
    Int.fdiv (power_recursion ((1 : Int), (1 : Int)) 3 (field_multiply 5)).2
        (2 ^ ((3 : Int).toNat - 1)) * 2 ^ ((3 : Int).toNat - 1) =
      (power_recursion ((1 : Int), (1 : Int)) 3 (field_multiply 5)).2 :=
  power_b_divisible 3 (by norm_num)

/-- C3: fm_f d (w,x) (y,z) is the pair (u + d·v, (w+x)(y+z) − u − v) with
u = w·y and v = x·z, and this equals the direct product
(w·y + d·x·z, w·z + x·y), for all integer arguments including negatives
and zero. -/
theorem fm_f_three_mul_eq_direct (d w x y z : Int) :
    fm_f d (w, x) (y, z) =
      (w * y + d * (x * z), (w + x) * (y + z) - w * y - x * z) ∧
    fm_f d (w, x) (y, z) = (w * y + d * x * z, w * z + x * y) := by
  refine ⟨rfl, ?_⟩
  simp only [fm_f, Prod.mk.injEq]
  constructor <;> ring

theorem fpow_mul_pow (k : Int) (m : Nat) : fpow (· * ·) k m = k ^ (m + 1) := by
  induction m with
  | zero => simp [fpow]
  | succ m ih =>
      show fpow (· * ·) k m * k = k ^ (m + 1 + 1)
      rw [ih]
      ring

/-- C4: when the combining operation is ordinary integer multiplication
(wrapped by the n_ary decorator, the form in which every operation reaches
power_recursion in the source), power_recursion(k, n, ·) = k^n for every
integer k and every n ≥ 1. -/
theorem power_recursion_pow (k : Int) (n : Int) (h : 1 ≤ n) :
    power_recursion k n (n_ary (· * ·)) = k ^ n.toNat := by
  rw [power_recursion_eq_fpow (· * ·) (fun a b c => mul_assoc a b c) k n h, fpow_mul_pow]
  congr 1
  omega

/-- C4 witness at k = 3, n = 5. -/
theorem power_recursion_pow_witness :
    power_recursion (3 : Int) 5 (n_ary (· * ·)) = 3 ^ (5 : Int).toNat :=
  power_recursion_pow 3 5 (by norm_num)

/-- C5: the literal values fibonacci(0) = 0, fibonacci(1) = 1,
fibonacci(2) = 1, fibonacci(4) = 3, fibonacci(10) = 55 and
fibonacci(100) = 354224848179261915075; the n = 0 value comes from the
first if-branch of fibonacci, which returns 0 before power_recursion is
reached (the branch is proved by rfl, evaluating no exponentiation). -/
theorem fibonacci_literals :
    fibonacci 0 = some 0 ∧ fibonacci 1 = some 1 ∧ fibonacci 2 = some 1 ∧
    fibonacci 4 = some 3 ∧ fibonacci 10 = some 55 ∧
    fibonacci 100 = some 354224848179261915075 := by
  refine ⟨rfl, ?_, ?_, ?_, ?_, ?_⟩ <;>
  · rw [fib_correct _ (by norm_num)]
    decide

/-- C6 counterexample: the variadic helper is NOT left-associative on three
operands; with f = integer subtraction and operands 1, 1, 1 it returns
1 - (1 - 1) = 1, while the left-associated value (1 - 1) - 1 is -1. -/
theorem n_ary_not_left_assoc :
    ¬ (n_ary (fun a b : Int => a - b) 1 [1, 1] = (1 - 1 : Int) - 1) := by decide

/-- C6 amended: the variadic helper folds to the RIGHT: one operand is
returned unchanged, two operands give f(x, y), three give f(x, f(y, z)); in
the odd-exponent step of power_recursion this yields
f(recurse, f(recurse, expr)) rather than f(f(recurse, recurse), expr). -/
theorem n_ary_right_fold (f : α → α → α) (x y z : α) :
    n_ary f x [] = x ∧ n_ary f x [y] = f x y ∧ n_ary f x [y, z] = f x (f y z) ∧
    ∀ (e : α) (n : Int), 1 < n → n % 2 ≠ 0 →
      power_recursion e n (n_ary f) =
        f (power_recursion e (Int.fdiv n 2) (n_ary f))
          (f (power_recursion e (Int.fdiv n 2) (n_ary f)) e) := by
  refine ⟨rfl, rfl, rfl, ?_⟩
  intro e n h1 h2
  rw [power_recursion_odd _ _ _ h1 h2]
  rfl

/-- C6 witness: the odd step at n = 3 with integer addition. -/
theorem n_ary_right_fold_witness :
    power_recursion (1 : Int) 3 (n_ary (fun a b : Int => a + b)) =
      power_recursion (1 : Int) (Int.fdiv 3 2) (n_ary (fun a b : Int => a + b)) +
        (power_recursion (1 : Int) (Int.fdiv 3 2) (n_ary (fun a b : Int => a + b)) + 1) :=
  (n_ary_right_fold (fun a b : Int => a + b) 1 1 1).2.2.2 1 3 (by norm_num) (by decide)

/-- C7: power_recursion terminates on every n ≥ 1 (it is a total function of
this embedding, defined by well-founded recursion on n), and its recursion
depth — the number of invocations of the combining operation f, one per
recursive level — is exactly ⌊log₂ n⌋, hence O(log n). -/
theorem power_recursion_log_depth (e : α) (n : Int) (f : α → List α → α) (h : 1 ≤ n) :
    (power_recursion_instr e n f).1 = power_recursion e n f ∧
    (power_recursion_instr e n f).2 = Nat.log 2 n.toNat := by
  rw [power_recursion_instr_spec e n f h]
  exact ⟨rfl, rfl⟩

/-- C7 witness at n = 8. -/
theorem power_recursion_log_depth_witness :
    (power_recursion_instr (2 : Int) 8 (fun x _ => x)).1 =
      power_recursion (2 : Int) 8 (fun x _ => x) ∧
    (power_recursion_instr (2 : Int) 8 (fun x _ => x)).2 = Nat.log 2 (8 : Int).toNat :=
  power_recursion_log_depth 2 8 (fun x _ => x) (by norm_num)

/-- C8: fibonacci is deterministic: any two evaluations at the same argument
yield the same value.  The source functions mutate no state (no globals, no
memoization), so the routine embeds as a pure function and determinism holds
for every n. -/
theorem fibonacci_deterministic (n : Int) (x y : Option Int)
    (hx : fibonacci n = x) (hy : fibonacci n = y) : x = y := by
  rw [← hx, ← hy]

/-- C8 witness: two evaluations at n = 10 agree on the value some 55. -/
theorem fibonacci_deterministic_witness : fibonacci 10 = some 55 :=
  fibonacci_deterministic 10 (fibonacci 10) (some 55) rfl
    (by rw [fib_correct 10 (by norm_num)]; decide)

/-- C9: for every n ≤ 1 — including n = 0 and negative n — power_recursion
returns expr unchanged and performs zero invocations of f. -/
theorem power_recursion_low (e : α) (n : Int) (f : α → List α → α) (h : n ≤ 1) :
    power_recursion e n f = e ∧ (power_recursion_instr e n f).2 = 0 := by
  rw [power_recursion_base e n f h, power_recursion_instr_base e n f h]
  exact ⟨rfl, rfl⟩

/-- C9 witness at n = -3. -/
theorem power_recursion_low_witness :
    power_recursion (7 : Int) (-3) (fun x _ => x) = 7 ∧
    (power_recursion_instr (7 : Int) (-3) (fun x _ => x)).2 = 0 :=
  power_recursion_low 7 (-3) (fun x _ => x) (by norm_num)

/-- C10: the multiplication returned by field_multiply d, used as the binary
operation p, q ↦ field_multiply d p [q], is commutative and associative on
integer pairs, for every field parameter d — the property that legitimises
combining it with repeated squaring. -/
theorem field_multiply_comm_assoc (d : Int) (p q r : Int × Int) :
    field_multiply d p [q] = field_multiply d q [p] ∧
    field_multiply d (field_multiply d p [q]) [r] =
      field_multiply d p [field_multiply d q [r]] :=
  ⟨fm_f_comm d p q, fm_f_assoc d p q r⟩
